import Mathlib

/-!
Shallow embedding of parts of the MUSE_OS energy-systems model
(src/muse/demand_share.py, src/muse/filters.py, src/muse/objectives.py,
src/muse/sectors/sector.py) together with proofs settling the specification
claims about them.

Floating-point scalars are modelled by the type `FP`: exact rationals extended
with the IEEE special values NaN, positive and negative infinity, with numpy's
propagation rules for the operations the embedded code uses.  Where a claim's
arithmetic involves no division (so no NaN can arise in the identities at
issue), plain `ℚ` is used directly.
-/

/-- IEEE-754-style scalar as manipulated by numpy: an exact rational, or one of
the special values NaN, positive infinity, negative infinity. -/
inductive FP where
  | num : ℚ → FP
  | nan : FP
  | inf : FP
  | ninf : FP
deriving DecidableEq, Repr

namespace FP

/-- Floating addition with numpy/IEEE propagation: NaN absorbs, opposite
infinities give NaN. -/
def add : FP → FP → FP
  | nan, _ => nan
  | _, nan => nan
  | inf, ninf => nan
  | ninf, inf => nan
  | inf, _ => inf
  | _, inf => inf
  | ninf, _ => ninf
  | _, ninf => ninf
  | num a, num b => num (a + b)

/-- Floating multiplication with numpy/IEEE propagation: NaN absorbs, infinity
times zero gives NaN. -/
def mul : FP → FP → FP
  | nan, _ => nan
  | _, nan => nan
  | num a, num b => num (a * b)
  | inf, num b => if b = 0 then nan else if 0 < b then inf else ninf
  | num a, inf => if a = 0 then nan else if 0 < a then inf else ninf
  | ninf, num b => if b = 0 then nan else if 0 < b then ninf else inf
  | num a, ninf => if a = 0 then nan else if 0 < a then ninf else inf
  | inf, inf => inf
  | inf, ninf => ninf
  | ninf, inf => ninf
  | ninf, ninf => inf

/-- Floating division with numpy/IEEE propagation: zero over zero is NaN, a
nonzero number over zero is a signed infinity, infinity over infinity is NaN. -/
def div : FP → FP → FP
  | nan, _ => nan
  | _, nan => nan
  | num a, num b =>
      if b = 0 then (if a = 0 then nan else if 0 < a then inf else ninf)
      else num (a / b)
  | inf, num b => if 0 ≤ b then inf else ninf
  | ninf, num b => if 0 ≤ b then ninf else inf
  | num _, inf => num 0
  | num _, ninf => num 0
  | inf, inf => nan
  | inf, ninf => nan
  | ninf, inf => nan
  | ninf, ninf => nan

/-- Floating comparison `x <= y`; any comparison with NaN is false. -/
def le : FP → FP → Bool
  | nan, _ => false
  | _, nan => false
  | ninf, _ => true
  | _, inf => true
  | inf, ninf => false
  | inf, num _ => false
  | num _, ninf => false
  | num a, num b => decide (a ≤ b)

/-- Floating comparison `x < y`; any comparison with NaN is false. -/
def lt : FP → FP → Bool
  | nan, _ => false
  | _, nan => false
  | num a, num b => decide (a < b)
  | ninf, ninf => false
  | ninf, _ => true
  | inf, _ => false
  | num _, inf => true
  | num _, ninf => false

/-- Embeds `x.fillna(d)`: replaces NaN by `d`, keeps every other value. -/
def fillna (x d : FP) : FP :=
  match x with
  | nan => d
  | y => y

/-- True when both values are finite numbers within `tol` of each other; a NaN
or infinite value on either side compares false. -/
def withinTol : FP → FP → ℚ → Bool
  | num a, num b, tol => decide (|a - b| ≤ tol)
  | _, _, _ => false

end FP

/-- Sum of a list of floating values (numpy reductions and Python `sum`). -/
def fpSum (l : List FP) : FP := l.foldr FP.add (FP.num 0)

/-- The literal `1e-12` used as tolerance in `_inner_split`. -/
def eps12 : ℚ := 1 / 10 ^ 12

/-- Embeds `sum(shares.values())` of `_inner_split` (demand_share.py line 285)
pointwise: the sum over agents `Fin nA` of the grouped share arrays.  Each
agent's array is `method(capacity).groupby("technology").sum("asset")`
(demand_share.py lines 278-284); the common asset axis `Fin nT` corresponds to
xarray's alignment of the agents' arrays, which is the identity when all agents
carry the same technology coordinates (the case modelled here).  `Fin nC`
indexes the remaining (commodity, timeslice) cells. -/
def sharesValuesSum {nA nT nC : ℕ} (share : Fin nA → Fin nT → Fin nC → FP)
    (t : Fin nT) (c : Fin nC) : FP :=
  fpSum ((List.finRange nA).map fun u => share u t c)

/-- Embeds `total = sum(shares.values()).sum("asset")` (demand_share.py
line 285). -/
def totalShare {nA nT nC : ℕ} (share : Fin nA → Fin nT → Fin nC → FP)
    (c : Fin nC) : FP :=
  fpSum ((List.finRange nT).map fun t => sharesValuesSum share t c)

/-- Embeds the `unassigned` term of `_inner_split` (demand_share.py lines
286-288): `(demand / (len(shares) * len(sum(shares.values()).asset)))
.where(logical_and(demand > 1e-12, total <= 1e-12), 0)`.  Here `len(shares)`
is `nA` and the length of the aligned asset axis is `nT`. -/
def unassigned {nA nT nC : ℕ} (share : Fin nA → Fin nT → Fin nC → FP)
    (demand : Fin nC → FP) (c : Fin nC) : FP :=
  if FP.lt (FP.num eps12) (demand c) && FP.le (totalShare share c) (FP.num eps12)
  then FP.div (demand c) (FP.num ((nA : ℚ) * (nT : ℚ)))
  else FP.num 0

/-- Embeds `((share / total).fillna(0) * demand).fillna(0)` of `_inner_split`
(demand_share.py line 290): the proportionally assigned part of agent `u`'s
share, before the `unassigned` term is added. -/
def assignedPart {nA nT nC : ℕ} (share : Fin nA → Fin nT → Fin nC → FP)
    (demand : Fin nC → FP) (u : Fin nA) (t : Fin nT) (c : Fin nC) : FP :=
  FP.fillna
    (FP.mul (FP.fillna (FP.div (share u t c) (totalShare share c)) (FP.num 0))
      (demand c))
    (FP.num 0)

/-- Embeds the value returned by `_inner_split` for agent `u` (demand_share.py
lines 289-292): `((share / total).fillna(0) * demand).fillna(0) + unassigned`,
at asset (technology) `t` and cell `c`. -/
def _inner_split {nA nT nC : ℕ} (share : Fin nA → Fin nT → Fin nC → FP)
    (demand : Fin nC → FP) (u : Fin nA) (t : Fin nT) (c : Fin nC) : FP :=
  FP.add (assignedPart share demand u t c) (unassigned share demand c)

/-- Sum over all agents and all assets of the shares returned by
`_inner_split` at cell `c`: the quantity constrained by the demand-share
completeness property. -/
def returnedSum {nA nT nC : ℕ} (share : Fin nA → Fin nT → Fin nC → FP)
    (demand : Fin nC → FP) (c : Fin nC) : FP :=
  fpSum ((List.finRange nA).map fun u =>
    fpSum ((List.finRange nT).map fun t => _inner_split share demand u t c))

/-- Rational-level total of the reference shares at cell `c`, used to phrase
hypotheses about `totalShare` when every share is a finite number. -/
def totalQ {nA nT nC : ℕ} (q : Fin nA → Fin nT → Fin nC → ℚ) (c : Fin nC) : ℚ :=
  ∑ t : Fin nT, ∑ u : Fin nA, q u t c

/-- Concrete reference share refuting demand-share completeness: a single agent
with a single asset whose reference share at the only cell is `1e-13`. -/
def cexQ : Fin 1 → Fin 1 → Fin 1 → ℚ := fun _ _ _ => 1 / 10 ^ 13

/-- Concrete demand for the completeness counterexample: `1.0` at the only
cell. -/
def cexD : Fin 1 → ℚ := fun _ => 1

/-- The floating share array fed to `_inner_split` in the completeness
counterexample. -/
def cexShare : Fin 1 → Fin 1 → Fin 1 → FP := fun u t c => FP.num (cexQ u t c)

/-- The floating demand array fed to `_inner_split` in the completeness
counterexample. -/
def cexDemand : Fin 1 → FP := fun c => FP.num (cexD c)


/-- Clipping at zero: `x.clip(min=0)` on a scalar cell. -/
def clipMin0 (x : ℚ) : ℚ := max x 0

/-- Embeds `production(...).groupby("region").sum("asset")` at one
(region, commodity, timeslice) cell: the per-asset production is summed over
the assets whose region coordinate matches the cell's region (demand_share.py
lines 319-323 and 415-423).  `regionOfAsset` and `regionOfCell` are the region
coordinates of the asset axis and of the market cells. -/
def groupRegionSum {nAst nC nR : ℕ} (regionOfAsset : Fin nAst → Fin nR)
    (regionOfCell : Fin nC → Fin nR) (prod : Fin nAst → Fin nC → ℚ)
    (c : Fin nC) : ℚ :=
  ∑ a ∈ Finset.univ.filter (fun a => regionOfAsset a = regionOfCell c), prod a c

/-- Embeds `unmet_demand` (demand_share.py lines 295-324):
`(market.consumption - prod).clip(min=0)` where `prod` is the output of the
production method on the given market and capacity, summed per region.  The
production method is abstracted by its per-asset output `prod`. -/
def unmet_demand {nAst nC nR : ℕ} (regionOfAsset : Fin nAst → Fin nR)
    (regionOfCell : Fin nC → Fin nR) (consumption : Fin nC → ℚ)
    (prod : Fin nAst → Fin nC → ℚ) (c : Fin nC) : ℚ :=
  clipMin0 (consumption c - groupRegionSum regionOfAsset regionOfCell prod c)

/-- Embeds `new_consumption` (demand_share.py lines 327-365):
`delta = (forecasted.consumption - current.consumption).clip(min=0)`,
`missing = unmet_demand(forecasted, ts_capa, technologies)`, returning
`delta.where(delta < missing, missing)`.  `prodCur` is the production method
applied to the forecast-year market and the current-year capacity. -/
def new_consumption {nAst nC nR : ℕ} (regionOfAsset : Fin nAst → Fin nR)
    (regionOfCell : Fin nC → Fin nR) (consumptionCur consumptionFcast : Fin nC → ℚ)
    (prodCur : Fin nAst → Fin nC → ℚ) (c : Fin nC) : ℚ :=
  let delta := clipMin0 (consumptionFcast c - consumptionCur c)
  let missing := unmet_demand regionOfAsset regionOfCell consumptionFcast prodCur c
  if delta < missing then delta else missing

/-- Embeds `new_and_retro_demands` (demand_share.py lines 368-432): the pair
(new, retrofit) of demand components at cell `c`.  `prodCur` and `prodFcast`
are the production method applied at the forecast-year market to the
current-year and the forecast-year capacity respectively; `service` is the
latter summed per region, and the retrofit component is
`(consumption(forecast) - new_demand - service).clip(min=0)`. -/
def new_and_retro_demands {nAst nC nR : ℕ} (regionOfAsset : Fin nAst → Fin nR)
    (regionOfCell : Fin nC → Fin nR) (consumptionCur consumptionFcast : Fin nC → ℚ)
    (prodCur prodFcast : Fin nAst → Fin nC → ℚ) (c : Fin nC) : ℚ × ℚ :=
  let newDemand := new_consumption regionOfAsset regionOfCell consumptionCur
    consumptionFcast prodCur c
  let service := groupRegionSum regionOfAsset regionOfCell prodFcast c
  (newDemand, clipMin0 (consumptionFcast c - newDemand - service))

/-- A search space (filters.py module doc): a boolean matrix over
(asset, replacement) whose coordinate arrays hold technology labels: each
asset's technology and each replacement column's technology. -/
structure SearchSpace (nA nR nT : ℕ) where
  assetTech : Fin nA → Fin nT
  replTech : Fin nR → Fin nT
  grid : Fin nA → Fin nR → Bool

/-- Embeds `same_enduse` (filters.py lines 220-239): `tech_enduses` is the 0/1
integer matrix `(fixed_outputs > 0).astype(int)` over enduse commodities at
the agent's year; `asset_enduses` selects it at the asset coordinate's
technologies, and the filter returns
`search_space & ((tech_enduses - asset_enduses) >= 0).all("commodity")`. -/
def same_enduse {nA nR nT nC : ℕ} (fixedOutputs : Fin nT → Fin nC → ℚ)
    (s : SearchSpace nA nR nT) : SearchSpace nA nR nT :=
  let techEnduses : Fin nT → Fin nC → ℤ :=
    fun t c => if 0 < fixedOutputs t c then 1 else 0
  ⟨s.assetTech, s.replTech, fun a r =>
    s.grid a r &&
      decide (∀ c, 0 ≤ techEnduses (s.replTech r) c - techEnduses (s.assetTech a) c)⟩

/-- Embeds `similar_technology` (filters.py lines 248-256):
`search_space & (asset_types == tech_types)` where both sides select
`technologies.tech_type` at the asset and replacement coordinates. -/
def similar_technology {nA nR nT nK : ℕ} (tech_type : Fin nT → Fin nK)
    (s : SearchSpace nA nR nT) : SearchSpace nA nR nT :=
  ⟨s.assetTech, s.replTech, fun a r =>
    s.grid a r && decide (tech_type (s.assetTech a) = tech_type (s.replTech r))⟩

/-- Embeds `same_fuels` (filters.py lines 259-267):
`search_space & (asset_fuel == tech_fuel)`. -/
def same_fuels {nA nR nT nF : ℕ} (fuel : Fin nT → Fin nF)
    (s : SearchSpace nA nR nT) : SearchSpace nA nR nT :=
  ⟨s.assetTech, s.replTech, fun a r =>
    s.grid a r && decide (fuel (s.assetTech a) = fuel (s.replTech r))⟩

/-- Embeds `currently_existing_tech` (filters.py lines 270-288):
`result = search_space & search_space.replacement.isin(capacity.replacement)`
followed by the in-place `&=` with `capacity.sel(replacement=both) > tolerance`
on the columns present in the market.  `marketTechs` is the market capacity's
technology coordinate and `capacity` its value at the agent's year and
region. -/
def currently_existing_tech {nA nR nT : ℕ} (marketTechs : List (Fin nT))
    (capacity : Fin nT → ℚ) (tolerance : ℚ) (s : SearchSpace nA nR nT) :
    SearchSpace nA nR nT :=
  ⟨s.assetTech, s.replTech, fun a r =>
    (s.grid a r && decide (s.replTech r ∈ marketTechs)) &&
      (if s.replTech r ∈ marketTechs then decide (tolerance < capacity (s.replTech r))
       else true)⟩

/-- Embeds `currently_referenced_tech` (filters.py lines 291-304):
`search_space & search_space.replacement.isin(capacity.replacement)`. -/
def currently_referenced_tech {nA nR nT : ℕ} (marketTechs : List (Fin nT))
    (s : SearchSpace nA nR nT) : SearchSpace nA nR nT :=
  ⟨s.assetTech, s.replTech, fun a r =>
    s.grid a r && decide (s.replTech r ∈ marketTechs)⟩

/-- Embeds `maturity` (filters.py lines 307-331): with `capacity` the market
capacity at the agent's year per technology and `outputs` the enduse
`fixed_outputs`, the code computes
`enduse_production = (capacity * outputs).sum("technology")` and returns
`search_space & (maturity_threshhold * enduse_production <= capacity).all("commodity")`.
The comparison retains the capacity's own (unrenamed) `technology` dimension,
so the xarray result broadcasts over (asset, replacement, technology); the
returned grid here carries that extra axis. -/
def maturity {nA nR nT nC : ℕ} (capacity : Fin nT → ℚ)
    (outputs : Fin nT → Fin nC → ℚ) (maturity_threshhold : ℚ)
    (s : SearchSpace nA nR nT) : Fin nA → Fin nR → Fin nT → Bool :=
  let enduse_production : Fin nC → ℚ := fun c => ∑ t, capacity t * outputs t c
  fun a r t =>
    s.grid a r && decide (∀ c, maturity_threshhold * enduse_production c ≤ capacity t)

/-- The replacement columns retained by `compress` (filters.py lines 334-351):
those with a `True` somewhere on the asset axis,
`search_space.sel(replacement=search_space.any("asset"))`. -/
def compressKept {nA nR nT : ℕ} (s : SearchSpace nA nR nT) : List (Fin nR) :=
  (List.finRange nR).filter fun r => (List.finRange nA).any fun a => s.grid a r

/-- Embeds `compress` (filters.py lines 334-351): the search space restricted
to the retained replacement columns; values of retained entries are taken
unchanged from the input grid. -/
def compress {nA nR nT : ℕ} (s : SearchSpace nA nR nT) :
    SearchSpace nA (compressKept s).length nT :=
  ⟨s.assetTech, fun i => s.replTech ((compressKept s).get i),
    fun a i => s.grid a ((compressKept s).get i)⟩

/-- Embeds `with_asset_technology` (filters.py lines 354-363):
`search_space | (search_space.asset == search_space.replacement)`, comparing
the technology labels of the asset and replacement coordinates. -/
def with_asset_technology {nA nR nT : ℕ} (s : SearchSpace nA nR nT) :
    SearchSpace nA nR nT :=
  ⟨s.assetTech, s.replTech, fun a r =>
    s.grid a r || decide (s.assetTech a = s.replTech r)⟩

/-- Concrete search space for the maturity counterexample: one asset, one
replacement column, one technology, initially `True`. -/
def matSS : SearchSpace 1 1 1 := ⟨fun _ => 0, fun _ => 0, fun _ _ => true⟩

/-- Concrete market capacity for the maturity counterexample: `1.0`. -/
def matCap : Fin 1 → ℚ := fun _ => 1

/-- Concrete enduse outputs for the maturity counterexample: `1.5`. -/
def matOut : Fin 1 → Fin 1 → ℚ := fun _ _ => 3 / 2

/-- Dimension and coordinate names relevant to the objective post-condition
checks (objectives.py lines 175-185). -/
inductive Dim where
  | asset : Dim
  | replacement : Dim
  | technology : Dim
  | other : ℕ → Dim
deriving DecidableEq, Repr

/-- The data of an objective's return value inspected by the registration
wrapper (objectives.py lines 166-185): its dimension names, its coordinate
names, and whether its dtype is a numpy number or bool subtype. -/
structure ObjResult where
  dims : List Dim
  coords : List Dim
  numericDtype : Bool
deriving DecidableEq, Repr

/-- Outcome of one call through the objective registration wrapper: a raised
`RuntimeError` with the warnings logged before it, or the returned result with
the warnings logged along the way. -/
inductive WrapOutcome where
  | raised : List String → String → WrapOutcome
  | ok : List String → ObjResult → WrapOutcome
deriving DecidableEq, Repr

/-- Embeds the `decorated` closure of `register_objective` (objectives.py lines
156-188).  The demand is an array over a global asset axis `Fin nD`; the
search space contributes its asset coordinate `ssAsset : Fin nS → Fin nD`, and
`reduced_demand = demand.sel(asset=search_space.asset)` restricts the demand
to those assets before the underlying objective `f` runs.  The wrapper then
warns (without stopping) when the result dtype is not numeric or bool, and
raises when the result dims are not a subset of (replacement, asset) or a
`technology` dimension or coordinate is present. -/
def register_objective_call {nD nS : ℕ} (f : (Fin nS → ℚ) → ObjResult)
    (demand : Fin nD → ℚ) (ssAsset : Fin nS → Fin nD) : WrapOutcome :=
  let reduced_demand : Fin nS → ℚ := fun i => demand (ssAsset i)
  let result := f reduced_demand
  let warnings : List String :=
    if result.numericDtype then [] else ["dtype of objective is not a number"]
  if ¬ (∀ d ∈ result.dims, d = Dim.replacement ∨ d = Dim.asset) then
    WrapOutcome.raised warnings "dims not a subset of replacement, asset"
  else if Dim.technology ∈ result.dims then
    WrapOutcome.raised warnings "Objective should not return a dimension technology"
  else if Dim.technology ∈ result.coords then
    WrapOutcome.raised warnings "Objective should not return a coordinate technology"
  else WrapOutcome.ok warnings result

/-- A critical log message emitted by `Sector.investment` for a degenerate
demand share, tagged with the agent's uuid (sector.py lines 318-329). -/
inductive ShareLog where
  | emptyShare : ℕ → ShareLog
  | belowTolerance : ℕ → ShareLog
deriving DecidableEq, Repr

/-- An agent as seen by `Sector.investment`: its uuid, its optional `year`
attribute (checked by the assert when present), and its owned capacity. -/
structure SAgent where
  uuid : ℕ
  year : Option ℤ
  capacity : ℚ
deriving DecidableEq, Repr

/-- Modelled from the spec: `AgentBase.next` lives in muse/agent.py, which is
not under src/.  Per spec sections 4.6.4 and 7, an empty or below-tolerance
demand share means "no investment needed": the agent's capacity is unchanged;
otherwise the agent commits new capacity computed by the search-space,
objective and decision pipeline, abstracted here as `invest`. -/
def agentNext (invest : List ℚ → ℚ) (cap : ℚ) (share : List ℚ) : ℚ :=
  if share.length = 0 ∨ share.sum < eps12 then cap else cap + invest share

/-- The critical log messages the `Sector.investment` loop emits for one agent
(sector.py lines 318-329): one entry when the share array is empty, else one
entry when its sum falls below `1e-12`, else nothing. -/
def shareLogsFor (shares : ℕ → Option (List ℚ)) (a : SAgent) : List ShareLog :=
  match shares a.uuid with
  | none => []
  | some sh =>
      if sh.length = 0 then [ShareLog.emptyShare a.uuid]
      else if sh.sum < eps12 then [ShareLog.belowTolerance a.uuid]
      else []

/-- The state of one agent after its `next` step in the investment loop. -/
def investStep (invest : List ℚ → ℚ) (shares : ℕ → Option (List ℚ))
    (a : SAgent) : SAgent :=
  ⟨a.uuid, a.year, agentNext invest a.capacity ((shares a.uuid).getD [])⟩

/-- Embeds the per-agent loop of `Sector.investment` (sector.py lines
316-333): for each agent in order, assert that the market year equals the
agent's `year` attribute when present, look up the agent's share (a missing
uuid is a `KeyError`), log a critical message when the share is empty or sums
below `1e-12`, and always run the agent's `next` step.  Only the assert or a
missing key abort; the degenerate-share conditions never do. -/
def sector_investment (invest : List ℚ → ℚ) (marketYear : ℤ)
    (shares : ℕ → Option (List ℚ)) :
    List SAgent → Except String (List ShareLog × List SAgent)
  | [] => Except.ok ([], [])
  | a :: rest =>
      if ¬ (∀ y ∈ a.year, y = marketYear) then Except.error "AssertionError"
      else
        match shares a.uuid with
        | none => Except.error "KeyError"
        | some sh =>
            match sector_investment invest marketYear shares rest with
            | Except.error e => Except.error e
            | Except.ok (logs, agents) =>
                Except.ok (shareLogsFor shares a ++ logs,
                  ⟨a.uuid, a.year, agentNext invest a.capacity sh⟩ :: agents)

/-- Embeds the `Sector.forecast` property (sector.py lines 192-206): the input
list holds, per agent, the agent's `forecast` attribute when it has one;
agents without the attribute contribute nothing.  With no attributes at all
the result is `5`, otherwise `max(1, max(forecasts))`. -/
def Sector_forecast (agentForecasts : List (Option ℤ)) : ℤ :=
  let forecasts := agentForecasts.filterMap id
  match forecasts.max? with
  | none => 5
  | some m => max 1 m

/-- An agent as seen by the pairing logic of `new_and_retro` (demand_share.py
lines 234-265): identity, category, the capacity of its assets (one scalar
cell of the capacity array; the scaling by `quantity` acts pointwise), and the
optional `quantity` attribute of new agents. -/
structure DAgent where
  uuid : ℕ
  name : String
  region : String
  category : String
  capacity : ℚ
  quantity : Option ℚ
deriving DecidableEq, Repr

/-- Python dict lookup on an association list built in insertion order: the
last binding of a key wins, a missing key gives `none`. -/
def pyLookup {κ ω : Type} [DecidableEq κ] : List (κ × ω) → κ → Option ω
  | [], _ => none
  | (k1, w) :: rest, k =>
      match pyLookup rest k with
      | some w2 => some w2
      | none => if k = k1 then some w else none

/-- The retrofit agents of one region, in order (demand_share.py lines
237-241): `agent.category == "retrofit" and agent.region == region`. -/
def retroOf (agents : List DAgent) (region : String) : List DAgent :=
  agents.filter fun a => a.category == "retrofit" && a.region == region

/-- The non-retrofit ("new") agents of one region (demand_share.py lines
253-258): `agent.category != "retrofit" and agent.region == region`. -/
def newsOf (agents : List DAgent) (region : String) : List DAgent :=
  agents.filter fun a => !(a.category == "retrofit") && a.region == region

/-- Builds the `new_capacity` entries of `new_and_retro` (demand_share.py
lines 253-258): for each new agent, look up
`name_to_uuid[(agent.name, agent.region)]`, then `retro_capacity[...]`, and
scale by `getattr(agent, "quantity", 0.3)`; a missing key raises `KeyError`. -/
def pairNew (retro : List DAgent) : List DAgent → Except String (List (ℕ × ℚ))
  | [] => Except.ok []
  | a :: rest =>
      match pyLookup (retro.map fun b => ((b.name, b.region), b.uuid))
          (a.name, a.region) with
      | none => Except.error "KeyError"
      | some uuid =>
          match pyLookup (retro.map fun b => (b.uuid, b.capacity)) uuid with
          | none => Except.error "KeyError"
          | some cap =>
              match pairNew retro rest with
              | Except.error e => Except.error e
              | Except.ok l =>
                  Except.ok ((a.uuid, cap * (a.quantity.getD (3 / 10))) :: l)

/-- Embeds the per-region pairing of `new_and_retro` (demand_share.py lines
234-265): build `retro_capacity` (a dict keyed by uuid) and `name_to_uuid`
(a dict keyed by (name, region)) over the region's retrofit agents, assert
that the two dicts have the same number of keys
(`assert len(name_to_uuid) == len(retro_capacity)`), then build the new
agents' reference capacities. -/
def new_and_retro_pairing (agents : List DAgent) (region : String) :
    Except String (List (ℕ × ℚ)) :=
  let retro := retroOf agents region
  if ((retro.map fun a => (a.name, a.region)).dedup.length =
      (retro.map fun a => a.uuid).dedup.length)
  then pairNew retro (newsOf agents region)
  else Except.error "AssertionError"

-- ===== Lemmas and claim theorems from here on =====

theorem fpSum_cons (x : FP) (l : List FP) : fpSum (x :: l) = FP.add x (fpSum l) := rfl

theorem fpSum_map_num {α : Type} (f : α → ℚ) (l : List α) :
    fpSum (l.map fun a => FP.num (f a)) = FP.num ((l.map f).sum) := by
  induction l with
  | nil => rfl
  | cons a l ih => simp [fpSum_cons, FP.add, ih]

theorem totalShare_num {nA nT nC : ℕ} (q : Fin nA → Fin nT → Fin nC → ℚ) (c : Fin nC) :
    totalShare (fun u t c => FP.num (q u t c)) c = FP.num (totalQ q c) := by
  unfold totalShare sharesValuesSum totalQ
  have h1 : ∀ t : Fin nT,
      fpSum ((List.finRange nA).map fun u => FP.num (q u t c)) =
        FP.num (∑ u : Fin nA, q u t c) := by
    intro t
    rw [fpSum_map_num (fun u => q u t c) (List.finRange nA), ← Fin.sum_univ_def]
  calc fpSum ((List.finRange nT).map fun t =>
          fpSum ((List.finRange nA).map fun u => FP.num (q u t c)))
      = fpSum ((List.finRange nT).map fun t => FP.num (∑ u : Fin nA, q u t c)) := by
        congr 1; exact List.map_congr_left fun t _ => h1 t
    _ = FP.num (∑ t : Fin nT, ∑ u : Fin nA, q u t c) := by
        rw [fpSum_map_num (fun t => ∑ u : Fin nA, q u t c) (List.finRange nT),
          ← Fin.sum_univ_def]

theorem FP.withinTol_num (a b tol : ℚ) :
    FP.withinTol (FP.num a) (FP.num b) tol = decide (|a - b| ≤ tol) := rfl

theorem FP.fillna_num (a : ℚ) (d : FP) : FP.fillna (FP.num a) d = FP.num a := rfl

theorem FP.fillna_nan (d : FP) : FP.fillna FP.nan d = d := rfl

theorem FP.add_num (a b : ℚ) : FP.add (FP.num a) (FP.num b) = FP.num (a + b) := rfl

theorem FP.mul_num (a b : ℚ) : FP.mul (FP.num a) (FP.num b) = FP.num (a * b) := rfl

theorem FP.le_num (a b : ℚ) : FP.le (FP.num a) (FP.num b) = decide (a ≤ b) := rfl

theorem FP.lt_num (a b : ℚ) : FP.lt (FP.num a) (FP.num b) = decide (a < b) := rfl

theorem FP.div_num_of_ne (a : ℚ) {b : ℚ} (hb : b ≠ 0) :
    FP.div (FP.num a) (FP.num b) = FP.num (a / b) := by
  simp [FP.div, hb]

theorem FP.div_zero_zero : FP.div (FP.num 0) (FP.num 0) = FP.nan := rfl

theorem eps12_pos : 0 < eps12 := by norm_num [eps12]

theorem returnedSum_num {nA nT nC : ℕ} (share : Fin nA → Fin nT → Fin nC → FP)
    (demand : Fin nC → FP) (c : Fin nC) (g : Fin nA → Fin nT → ℚ)
    (h : ∀ u t, _inner_split share demand u t c = FP.num (g u t)) :
    returnedSum share demand c = FP.num (∑ u : Fin nA, ∑ t : Fin nT, g u t) := by
  unfold returnedSum
  have h1 : ∀ u : Fin nA,
      fpSum ((List.finRange nT).map fun t => _inner_split share demand u t c) =
        FP.num (∑ t : Fin nT, g u t) := by
    intro u
    have : ((List.finRange nT).map fun t => _inner_split share demand u t c) =
        (List.finRange nT).map fun t => FP.num (g u t) :=
      List.map_congr_left fun t _ => h u t
    rw [this, fpSum_map_num (fun t => g u t) (List.finRange nT), ← Fin.sum_univ_def]
  calc fpSum ((List.finRange nA).map fun u =>
          fpSum ((List.finRange nT).map fun t => _inner_split share demand u t c))
      = fpSum ((List.finRange nA).map fun u => FP.num (∑ t : Fin nT, g u t)) := by
        congr 1; exact List.map_congr_left fun u _ => h1 u
    _ = FP.num (∑ u : Fin nA, ∑ t : Fin nT, g u t) := by
        rw [fpSum_map_num (fun u => ∑ t : Fin nT, g u t) (List.finRange nA),
          ← Fin.sum_univ_def]

theorem totalQ_zero_shares {nA nT nC : ℕ} (q : Fin nA → Fin nT → Fin nC → ℚ)
    (hq : ∀ u t c, 0 ≤ q u t c) (c : Fin nC) (h0 : totalQ q c = 0) :
    ∀ u t, q u t c = 0 := by
  intro u t
  have houter : ∀ s ∈ Finset.univ, (∑ u : Fin nA, q u s c) = 0 :=
    (Finset.sum_eq_zero_iff_of_nonneg
      (fun s _ => Finset.sum_nonneg fun u _ => hq u s c)).mp h0
  have hinner : ∀ v ∈ Finset.univ, q v t c = 0 :=
    (Finset.sum_eq_zero_iff_of_nonneg (fun v _ => hq v t c)).mp
      (houter t (Finset.mem_univ t))
  exact hinner u (Finset.mem_univ u)

theorem inner_split_of_total_large {nA nT nC : ℕ}
    (q : Fin nA → Fin nT → Fin nC → ℚ) (d : Fin nC → ℚ) (c : Fin nC)
    (hgt : eps12 < totalQ q c) (u : Fin nA) (t : Fin nT) :
    _inner_split (fun u t c => FP.num (q u t c)) (fun c => FP.num (d c)) u t c =
      FP.num (q u t c / totalQ q c * d c) := by
  have hne : totalQ q c ≠ 0 := ne_of_gt (lt_trans eps12_pos hgt)
  have hnle : ¬ totalQ q c ≤ eps12 := not_le.mpr hgt
  unfold _inner_split assignedPart unassigned
  rw [totalShare_num, FP.div_num_of_ne _ hne, FP.fillna_num, FP.mul_num,
    FP.fillna_num, FP.le_num]
  simp [hnle, FP.add_num]

theorem inner_split_of_total_zero {nA nT nC : ℕ}
    (q : Fin nA → Fin nT → Fin nC → ℚ) (d : Fin nC → ℚ)
    (hq : ∀ u t c, 0 ≤ q u t c) (c : Fin nC) (h0 : totalQ q c = 0)
    (u : Fin nA) (t : Fin nT) :
    _inner_split (fun u t c => FP.num (q u t c)) (fun c => FP.num (d c)) u t c =
      FP.add (FP.num 0)
        (unassigned (fun u t c => FP.num (q u t c)) (fun c => FP.num (d c)) c) := by
  have hz : q u t c = 0 := totalQ_zero_shares q hq c h0 u t
  unfold _inner_split assignedPart
  rw [totalShare_num, h0]
  simp [hz, FP.div_zero_zero, FP.fillna_nan, FP.fillna_num, FP.mul_num]

theorem inner_split_double_count {nA nT nC : ℕ}
    (q : Fin nA → Fin nT → Fin nC → ℚ) (d : Fin nC → ℚ) (c : Fin nC)
    (hA : 0 < nA) (hT : 0 < nT)
    (hpos : 0 < totalQ q c) (hle : totalQ q c ≤ eps12) (hd : eps12 < d c)
    (u : Fin nA) (t : Fin nT) :
    _inner_split (fun u t c => FP.num (q u t c)) (fun c => FP.num (d c)) u t c =
      FP.num (q u t c / totalQ q c * d c + d c / ((nA : ℚ) * (nT : ℚ))) := by
  have hne : totalQ q c ≠ 0 := ne_of_gt hpos
  have hAT : ((nA : ℚ) * (nT : ℚ)) ≠ 0 :=
    ne_of_gt (mul_pos (by exact_mod_cast hA) (by exact_mod_cast hT))
  unfold _inner_split assignedPart unassigned
  rw [totalShare_num, FP.div_num_of_ne _ hne, FP.fillna_num, FP.mul_num,
    FP.fillna_num, FP.le_num, FP.lt_num]
  simp [hle, hd, FP.div_num_of_ne _ hAT, FP.add_num]

/-- C1, counterexample: with one agent owning one asset whose reference share
at the single cell is `1e-13` and a demand of `1.0`, the equal-split branch
triggers (the reference total `1e-13` is at most `1e-12`) while the
proportional division also goes through (the total is nonzero), so the sum of
the returned shares is `2.0`: twice the input demand, far outside the `1e-10`
tolerance. -/
theorem C1_demand_share_completeness_cex :
    returnedSum cexShare cexDemand 0 = FP.num 2 ∧
    cexDemand 0 = FP.num 1 ∧
    FP.withinTol (returnedSum cexShare cexDemand 0) (cexDemand 0)
      (1 / 10 ^ 10) = false := by
  have htot : totalQ cexQ 0 = 1 / 10 ^ 13 := by
    simp [totalQ, cexQ]
  have hsplit : ∀ u t, _inner_split cexShare cexDemand u t 0 = FP.num 2 := by
    intro u t
    have h := inner_split_double_count cexQ cexD 0 Nat.one_pos Nat.one_pos
      (by rw [htot]; norm_num) (by rw [htot]; norm_num [eps12])
      (by norm_num [eps12, cexD]) u t
    rw [show cexShare = fun u t c => FP.num (cexQ u t c) from rfl,
      show cexDemand = fun c => FP.num (cexD c) from rfl, h, htot]
    norm_num [cexQ, cexD]
  have hsum : returnedSum cexShare cexDemand 0 = FP.num 2 := by
    rw [returnedSum_num cexShare cexDemand 0 (fun _ _ => 2) hsplit]
    norm_num
  refine ⟨hsum, rfl, ?_⟩
  rw [hsum, show cexDemand 0 = FP.num 1 from rfl]
  simp [FP.withinTol]
  norm_num

/-- C1 (amended): for `_inner_split` over a non-empty set of agents whose
grouped share arrays carry a common non-empty asset axis, with finite
non-negative shares and finite non-negative demand, the sum over all agents
and assets of the returned shares is within `1e-10` of the input demand at
every cell whose reference total is either exactly zero or larger than
`1e-12`; the counterexample shows the bound fails when the total lies in
`(0, 1e-12]` while the demand exceeds `1e-12`, where the demand is counted
twice. -/
theorem C1_demand_share_completeness {nA nT nC : ℕ}
    (q : Fin nA → Fin nT → Fin nC → ℚ) (d : Fin nC → ℚ)
    (hA : 0 < nA) (hT : 0 < nT)
    (hq : ∀ u t c, 0 ≤ q u t c) (hd : ∀ c, 0 ≤ d c) (c : Fin nC)
    (hc : totalQ q c = 0 ∨ eps12 < totalQ q c) :
    FP.withinTol
      (returnedSum (fun u t c => FP.num (q u t c)) (fun c => FP.num (d c)) c)
      (FP.num (d c)) (1 / 10 ^ 10) = true := by
  have hAT : (0 : ℚ) < (nA : ℚ) * (nT : ℚ) :=
    mul_pos (by exact_mod_cast hA) (by exact_mod_cast hT)
  rcases hc with h0 | hgt
  · -- zero reference total: either the equal split restores the demand
    -- exactly, or everything is zero and the demand is below 1e-12
    by_cases hdc : eps12 < d c
    · have hu : unassigned (fun u t c => FP.num (q u t c))
          (fun c => FP.num (d c)) c = FP.num (d c / ((nA : ℚ) * (nT : ℚ))) := by
        unfold unassigned
        rw [totalShare_num, h0, FP.le_num, FP.lt_num]
        simp [hdc, le_of_lt eps12_pos, FP.div_num_of_ne _ (ne_of_gt hAT)]
      have hsplit : ∀ u t,
          _inner_split (fun u t c => FP.num (q u t c)) (fun c => FP.num (d c))
            u t c = FP.num (0 + d c / ((nA : ℚ) * (nT : ℚ))) := by
        intro u t
        rw [inner_split_of_total_zero q d hq c h0 u t, hu, FP.add_num]
      rw [returnedSum_num _ _ _ _ hsplit]
      have hs : (∑ _u : Fin nA, ∑ _t : Fin nT,
          ((0 : ℚ) + d c / ((nA : ℚ) * (nT : ℚ)))) = d c := by
        rw [Finset.sum_const, Finset.sum_const]
        simp only [Finset.card_univ, Fintype.card_fin, nsmul_eq_mul, zero_add]
        field_simp
        ring
      rw [hs, FP.withinTol_num]
      norm_num
    · have hu : unassigned (fun u t c => FP.num (q u t c))
          (fun c => FP.num (d c)) c = FP.num 0 := by
        unfold unassigned
        rw [totalShare_num, h0, FP.le_num, FP.lt_num]
        simp [hdc]
      have hsplit : ∀ u t,
          _inner_split (fun u t c => FP.num (q u t c)) (fun c => FP.num (d c))
            u t c = FP.num (0 + 0) := by
        intro u t
        rw [inner_split_of_total_zero q d hq c h0 u t, hu, FP.add_num]
      rw [returnedSum_num _ _ _ _ hsplit]
      have hs : (∑ _u : Fin nA, ∑ _t : Fin nT, ((0 : ℚ) + 0)) = 0 := by simp
      rw [hs, FP.withinTol_num]
      have habs : |0 - d c| ≤ 1 / 10 ^ 10 := by
        rw [zero_sub, abs_neg, abs_of_nonneg (hd c)]
        have h1 : d c ≤ eps12 := not_lt.mp hdc
        have h2 : eps12 ≤ 1 / 10 ^ 10 := by norm_num [eps12]
        linarith
      exact decide_eq_true habs
  · -- large reference total: exact proportional conservation
    have hT0 : totalQ q c ≠ 0 := ne_of_gt (lt_trans eps12_pos hgt)
    rw [returnedSum_num _ _ _ _ (inner_split_of_total_large q d c hgt)]
    have hcomm : (∑ u : Fin nA, ∑ t : Fin nT, q u t c) = totalQ q c := by
      unfold totalQ
      rw [Finset.sum_comm]
    have hs : (∑ u : Fin nA, ∑ t : Fin nT, q u t c / totalQ q c * d c) = d c := by
      calc (∑ u : Fin nA, ∑ t : Fin nT, q u t c / totalQ q c * d c)
          = ∑ u : Fin nA, ∑ t : Fin nT, q u t c * (d c / totalQ q c) := by
            refine Finset.sum_congr rfl fun u _ => Finset.sum_congr rfl fun t _ => ?_
            ring
        _ = (∑ u : Fin nA, ∑ t : Fin nT, q u t c) * (d c / totalQ q c) := by
            simp only [← Finset.sum_mul]
        _ = totalQ q c * (d c / totalQ q c) := by rw [hcomm]
        _ = d c := by field_simp
    rw [hs, FP.withinTol_num]
    norm_num

/-- C1, witness: two agents, one common asset, unit shares and demand `3`; the
reference total is `2 > 1e-12` and the returned shares sum back to the
demand. -/
theorem C1_demand_share_completeness_witness :
    FP.withinTol
      (returnedSum (fun (_ : Fin 2) (_ : Fin 1) (_ : Fin 1) => FP.num 1)
        (fun _ => FP.num 3) 0)
      (FP.num 3) (1 / 10 ^ 10) = true := by
  have h := @C1_demand_share_completeness 2 1 1 (fun _ _ _ => (1 : ℚ))
    (fun _ => (3 : ℚ)) (by norm_num) Nat.one_pos (fun _ _ _ => by norm_num)
    (fun _ => by norm_num) 0 (Or.inr (by norm_num [totalQ, eps12]))
  exact h

/-- C2: in `_inner_split`, (i) at every cell where the summed reference
quantity is at most `1e-12` while the demand exceeds `1e-12`, the `unassigned`
term equals `demand / (number of agents * number of assets)` and every agent's
returned share at that cell is its assigned part plus exactly that equal
portion; (ii) when the reference total is zero the share-over-total division
produces NaN and is filled to `0` rather than propagated; (iii) the trigger is
evaluated per cell independently: the `unassigned` term at a cell depends only
on the shares and demand at that same cell. -/
theorem C2_equal_split_fallback {nA nT nC : ℕ}
    (q : Fin nA → Fin nT → Fin nC → ℚ) (d : Fin nC → ℚ)
    (hA : 0 < nA) (hT : 0 < nT)
    (hq : ∀ u t c, 0 ≤ q u t c) (c : Fin nC) :
    (totalQ q c ≤ eps12 → eps12 < d c →
      unassigned (fun u t c => FP.num (q u t c)) (fun c => FP.num (d c)) c =
        FP.num (d c / ((nA : ℚ) * (nT : ℚ))) ∧
      ∀ u t,
        _inner_split (fun u t c => FP.num (q u t c)) (fun c => FP.num (d c))
            u t c =
          FP.add
            (assignedPart (fun u t c => FP.num (q u t c))
              (fun c => FP.num (d c)) u t c)
            (FP.num (d c / ((nA : ℚ) * (nT : ℚ))))) ∧
    (totalQ q c = 0 → ∀ u t,
      FP.div (FP.num (q u t c))
          (totalShare (fun u t c => FP.num (q u t c)) c) = FP.nan ∧
      FP.fillna
          (FP.div (FP.num (q u t c))
            (totalShare (fun u t c => FP.num (q u t c)) c))
          (FP.num 0) = FP.num 0) ∧
    (∀ (p : Fin nA → Fin nT → Fin nC → ℚ) (e : Fin nC → ℚ),
      (∀ u t, p u t c = q u t c) → e c = d c →
      unassigned (fun u t c => FP.num (p u t c)) (fun c => FP.num (e c)) c =
        unassigned (fun u t c => FP.num (q u t c)) (fun c => FP.num (d c)) c) := by
  have hAT : ((nA : ℚ) * (nT : ℚ)) ≠ 0 :=
    ne_of_gt (mul_pos (by exact_mod_cast hA) (by exact_mod_cast hT))
  refine ⟨fun hle hdc => ⟨?_, ?_⟩, fun h0 u t => ?_, fun p e hp he => ?_⟩
  · unfold unassigned
    rw [totalShare_num, FP.le_num, FP.lt_num]
    simp [hle, hdc, FP.div_num_of_ne _ hAT]
  · intro u t
    have hu : unassigned (fun u t c => FP.num (q u t c))
        (fun c => FP.num (d c)) c = FP.num (d c / ((nA : ℚ) * (nT : ℚ))) := by
      unfold unassigned
      rw [totalShare_num, FP.le_num, FP.lt_num]
      simp [hle, hdc, FP.div_num_of_ne _ hAT]
    rw [_inner_split, hu]
  · have hz : q u t c = 0 := totalQ_zero_shares q hq c h0 u t
    rw [totalShare_num, h0, hz, FP.div_zero_zero]
    exact ⟨rfl, rfl⟩
  · have htot : totalQ p c = totalQ q c :=
      Finset.sum_congr rfl fun t _ => Finset.sum_congr rfl fun u _ => hp u t
    unfold unassigned
    rw [totalShare_num, totalShare_num, htot]
    simp only [he]

/-- C2, witness: one agent, one asset, zero reference share, demand `1`: the
fallback gives the (single) agent the whole demand as the equal portion, and
the zero-total division is filled to `0`. -/
theorem C2_equal_split_fallback_witness :
    unassigned (fun (_ : Fin 1) (_ : Fin 1) (_ : Fin 1) => FP.num 0)
        (fun _ => FP.num 1) 0 =
      FP.num (1 / ((1 : ℚ) * (1 : ℚ))) ∧
    FP.fillna
        (FP.div (FP.num 0)
          (totalShare (fun (_ : Fin 1) (_ : Fin 1) (_ : Fin 1) => FP.num 0) 0))
        (FP.num 0) = FP.num 0 := by
  have h := @C2_equal_split_fallback 1 1 1 (fun _ _ _ => (0 : ℚ))
    (fun _ => (1 : ℚ)) Nat.one_pos Nat.one_pos (fun _ _ _ => le_refl 0) 0
  have h1 := (h.1 (by norm_num [totalQ, eps12]) (by norm_num [eps12])).1
  have h2 := (h.2.1 (by norm_num [totalQ]) 0 0).2
  exact ⟨h1, h2⟩

/-- C4: the sector-level split satisfies, element-wise at every cell: unmet
demand equals max(consumption minus production, 0); the new component equals
min(the clipped-at-zero consumption growth between current and forecast year,
the unmet demand at the forecast year given current-year assets); and the
retrofit component equals forecast consumption minus the new component minus
the production servable by current assets at the forecast year, clipped at
zero. -/
theorem C4_sector_level_split {nAst nC nR : ℕ}
    (regionOfAsset : Fin nAst → Fin nR) (regionOfCell : Fin nC → Fin nR)
    (consumption consumptionCur consumptionFcast : Fin nC → ℚ)
    (prod prodCur prodFcast : Fin nAst → Fin nC → ℚ) (c : Fin nC) :
    unmet_demand regionOfAsset regionOfCell consumption prod c =
      max (consumption c - groupRegionSum regionOfAsset regionOfCell prod c) 0 ∧
    (new_and_retro_demands regionOfAsset regionOfCell consumptionCur
        consumptionFcast prodCur prodFcast c).1 =
      min (max (consumptionFcast c - consumptionCur c) 0)
        (unmet_demand regionOfAsset regionOfCell consumptionFcast prodCur c) ∧
    (new_and_retro_demands regionOfAsset regionOfCell consumptionCur
        consumptionFcast prodCur prodFcast c).2 =
      max (consumptionFcast c -
          (new_and_retro_demands regionOfAsset regionOfCell consumptionCur
            consumptionFcast prodCur prodFcast c).1 -
          groupRegionSum regionOfAsset regionOfCell prodFcast c) 0 := by
  refine ⟨rfl, ?_, rfl⟩
  show new_consumption regionOfAsset regionOfCell consumptionCur
      consumptionFcast prodCur c = _
  simp only [new_consumption, clipMin0]
  by_cases h : max (consumptionFcast c - consumptionCur c) 0 <
      unmet_demand regionOfAsset regionOfCell consumptionFcast prodCur c
  · rw [if_pos h]
    exact (min_eq_left h.le).symm
  · rw [if_neg h]
    exact (min_eq_right (not_lt.mp h)).symm

/-- C3: each ordinary filter can only turn entries off (its grid is pointwise
at most the input grid; for `maturity` this holds at every point of its
broadcast (asset, replacement, technology) grid), `with_asset_technology` can
only turn entries on, and `compress` copies every retained entry unchanged
while keeping exactly the replacement columns that hold a `True` for some
asset. -/
theorem C3_filter_monotonicity {nA nR nT nC nK nF : ℕ}
    (s : SearchSpace nA nR nT) (fixedOutputs : Fin nT → Fin nC → ℚ)
    (tech_type : Fin nT → Fin nK) (fuel : Fin nT → Fin nF)
    (marketTechs : List (Fin nT)) (capacity : Fin nT → ℚ) (tolerance : ℚ)
    (outputs : Fin nT → Fin nC → ℚ) (maturity_threshhold : ℚ) :
    (∀ a r, (same_enduse fixedOutputs s).grid a r ≤ s.grid a r) ∧
    (∀ a r, (similar_technology tech_type s).grid a r ≤ s.grid a r) ∧
    (∀ a r, (same_fuels fuel s).grid a r ≤ s.grid a r) ∧
    (∀ a r, (currently_existing_tech marketTechs capacity tolerance s).grid a r ≤
      s.grid a r) ∧
    (∀ a r, (currently_referenced_tech marketTechs s).grid a r ≤ s.grid a r) ∧
    (∀ a r t, maturity capacity outputs maturity_threshhold s a r t ≤ s.grid a r) ∧
    (∀ a r, s.grid a r ≤ (with_asset_technology s).grid a r) ∧
    (∀ a (i : Fin (compressKept s).length),
      (compress s).grid a i = s.grid a ((compressKept s).get i)) ∧
    (∀ r, decide (r ∈ compressKept s) =
      ((List.finRange nA).any fun a => s.grid a r)) := by
  refine ⟨fun a r => ?_, fun a r => ?_, fun a r => ?_, fun a r => ?_,
    fun a r => ?_, fun a r t => ?_, fun a r => ?_, fun a i => rfl, fun r => ?_⟩
  · exact Bool.and_le_left _ _
  · exact Bool.and_le_left _ _
  · exact Bool.and_le_left _ _
  · exact le_trans (Bool.and_le_left _ _) (Bool.and_le_left _ _)
  · exact Bool.and_le_left _ _
  · exact Bool.and_le_left _ _
  · exact Bool.left_le_or _ _
  · by_cases h : ((List.finRange nA).any fun a => s.grid a r) = true
    · rw [h]
      refine decide_eq_true ?_
      simp [compressKept, List.mem_filter, h]
    · rw [Bool.not_eq_true] at h
      rw [h]
      refine decide_eq_false ?_
      simp [compressKept, List.mem_filter, h]

/-- C6, counterexample: with one technology of market capacity `1`, enduse
output `1.5` and maturity threshold `0.5`, the filter keeps the entry `True`
(the code tests `threshold * production <= capacity`, i.e. `0.75 <= 1`) even
though the candidate's aggregate enduse production `1.5` exceeds
`capacity * threshold = 0.5`, refuting the claimed bound. -/
theorem C6_maturity_cex :
    maturity matCap matOut (1 / 2) matSS 0 0 0 = true ∧
    ¬ ((∑ t : Fin 1, matCap t * matOut t 0) ≤ matCap 0 * (1 / 2)) := by
  constructor
  · norm_num [maturity, matSS, matCap, matOut, Fin.forall_fin_one,
      Fin.sum_univ_one]
  · norm_num [matCap, matOut, Fin.sum_univ_one]

/-- C6 (amended): the maturity filter keeps an entry `True` exactly when the
input entry was `True` and, for every enduse commodity, the maturity threshold
times the aggregate enduse production (capacity times outputs summed over all
technologies) is at most the candidate technology's market capacity: the
inequality is `threshold * production <= capacity`, not
`production <= capacity * threshold`, and the capacity side retains its own
technology axis over which the result broadcasts. -/
theorem C6_maturity_filter {nA nR nT nC : ℕ} (capacity : Fin nT → ℚ)
    (outputs : Fin nT → Fin nC → ℚ) (maturity_threshhold : ℚ)
    (s : SearchSpace nA nR nT) (a : Fin nA) (r : Fin nR) (t : Fin nT) :
    maturity capacity outputs maturity_threshhold s a r t = true ↔
      (s.grid a r = true ∧
        ∀ c, maturity_threshhold * (∑ u, capacity u * outputs u c) ≤
          capacity t) := by
  simp [maturity, Bool.and_eq_true, decide_eq_true_eq]

/-- C5: through the registration wrapper, a result whose dims are not a subset
of (asset, replacement), or which carries a `technology` dimension or
coordinate, makes the call raise; whereas when dims and coordinates pass, the
call returns the result even if its dtype is neither numeric nor boolean, in
which case only a warning is logged. -/
theorem C5_objective_contract {nD nS : ℕ} (f : (Fin nS → ℚ) → ObjResult)
    (demand : Fin nD → ℚ) (ssAsset : Fin nS → Fin nD) :
    (¬ (∀ d ∈ (f (fun i => demand (ssAsset i))).dims,
          d = Dim.replacement ∨ d = Dim.asset) ∨
        Dim.technology ∈ (f (fun i => demand (ssAsset i))).dims ∨
        Dim.technology ∈ (f (fun i => demand (ssAsset i))).coords →
      ∃ w msg,
        register_objective_call f demand ssAsset = WrapOutcome.raised w msg) ∧
    ((∀ d ∈ (f (fun i => demand (ssAsset i))).dims,
          d = Dim.replacement ∨ d = Dim.asset) →
      Dim.technology ∉ (f (fun i => demand (ssAsset i))).coords →
      register_objective_call f demand ssAsset =
        WrapOutcome.ok
          (if (f (fun i => demand (ssAsset i))).numericDtype then []
            else ["dtype of objective is not a number"])
          (f (fun i => demand (ssAsset i)))) := by
  constructor
  · intro h
    simp only [register_objective_call]
    by_cases h1 : ∀ d ∈ (f fun i => demand (ssAsset i)).dims,
        d = Dim.replacement ∨ d = Dim.asset
    · rw [if_neg (not_not_intro h1)]
      by_cases h2 : Dim.technology ∈ (f fun i => demand (ssAsset i)).dims
      · rw [if_pos h2]
        exact ⟨_, _, rfl⟩
      · rw [if_neg h2]
        by_cases h3 : Dim.technology ∈ (f fun i => demand (ssAsset i)).coords
        · rw [if_pos h3]
          exact ⟨_, _, rfl⟩
        · rcases h with ha | hb | hc
          · exact absurd h1 ha
          · exact absurd hb h2
          · exact absurd hc h3
    · rw [if_pos h1]
      exact ⟨_, _, rfl⟩
  · intro hsub hcoords
    have hdims : Dim.technology ∉ (f (fun i => demand (ssAsset i))).dims := by
      intro hm
      rcases hsub _ hm with h4 | h4 <;> exact Dim.noConfusion h4
    simp only [register_objective_call]
    rw [if_neg (not_not_intro hsub), if_neg hdims, if_neg hcoords]

/-- C5, witness: an objective returning a boolean-free, non-numeric result
over the `replacement` dimension passes through the wrapper with only the
dtype warning. -/
theorem C5_objective_contract_witness :
    register_objective_call
        (fun _ : Fin 1 → ℚ => ObjResult.mk [Dim.replacement] [] false)
        (fun _ : Fin 2 => (0 : ℚ)) (fun _ : Fin 1 => 0) =
      WrapOutcome.ok ["dtype of objective is not a number"]
        (ObjResult.mk [Dim.replacement] [] false) := by
  have h := (C5_objective_contract
      (fun _ : Fin 1 → ℚ => ObjResult.mk [Dim.replacement] [] false)
      (fun _ : Fin 2 => (0 : ℚ)) (fun _ : Fin 1 => 0)).2
    (by intro d hd; simp at hd; simp [hd]) (by simp)
  simpa using h

/-- C9: the wrapper hands the underlying objective the demand restricted to
`search_space.asset`, so two demands agreeing on the search-space assets give
identical outcomes: demand entries outside the search space never influence
the result. -/
theorem C9_demand_restriction {nD nS : ℕ} (f : (Fin nS → ℚ) → ObjResult)
    (demand demand2 : Fin nD → ℚ) (ssAsset : Fin nS → Fin nD)
    (h : ∀ i, demand (ssAsset i) = demand2 (ssAsset i)) :
    register_objective_call f demand ssAsset =
      register_objective_call f demand2 ssAsset := by
  unfold register_objective_call
  have he : (fun i => demand (ssAsset i)) = fun i => demand2 (ssAsset i) :=
    funext h
  rw [he]

/-- C9, witness: an objective that inspects its demand gives the same outcome
for two global demands that differ only outside the search space. -/
theorem C9_demand_restriction_witness :
    register_objective_call
        (fun red : Fin 1 → ℚ => ObjResult.mk [] [] (decide (red 0 = 1)))
        (fun i : Fin 2 => if i = 0 then (1 : ℚ) else 5) (fun _ : Fin 1 => 0) =
      register_objective_call
        (fun red : Fin 1 → ℚ => ObjResult.mk [] [] (decide (red 0 = 1)))
        (fun i : Fin 2 => if i = 0 then (1 : ℚ) else 99) (fun _ : Fin 1 => 0) :=
  C9_demand_restriction _ _ _ _ (fun i => by simp)

/-- C7: when every agent passes the year assert and has an entry in the
shares mapping, the investment loop completes without an exception even if
some shares are empty or below tolerance, producing the critical logs and the
per-agent `next` steps for the whole agent list; for every agent whose share
is empty or sums below `1e-12`, the loop logs the condition and the agent's
capacity is unchanged (no investment). -/
theorem C7_degenerate_share_nonfatal (invest : List ℚ → ℚ) (marketYear : ℤ)
    (shares : ℕ → Option (List ℚ)) (agents : List SAgent)
    (hy : ∀ a ∈ agents, ∀ y ∈ a.year, y = marketYear)
    (hs : ∀ a ∈ agents, (shares a.uuid).isSome) :
    sector_investment invest marketYear shares agents =
      Except.ok (agents.flatMap (shareLogsFor shares),
        agents.map (investStep invest shares)) ∧
    ∀ a ∈ agents, ∀ sh, shares a.uuid = some sh →
      sh.length = 0 ∨ sh.sum < eps12 →
      (investStep invest shares a).capacity = a.capacity ∧
      shareLogsFor shares a ≠ [] := by
  constructor
  · revert hy hs
    induction agents with
    | nil =>
        intro hy hs
        rfl
    | cons a rest ih =>
        intro hy hs
        obtain ⟨sh, hsh⟩ := Option.isSome_iff_exists.mp
          (hs a (List.mem_cons_self a rest))
        have hrest := ih (fun b hb => hy b (List.mem_cons_of_mem a hb))
          (fun b hb => hs b (List.mem_cons_of_mem a hb))
        unfold sector_investment
        rw [if_neg (not_not_intro (hy a (List.mem_cons_self a rest))), hsh,
          hrest]
        simp [investStep, hsh]
  · intro a _ sh hsh hdeg
    constructor
    · have hcap : (investStep invest shares a).capacity =
          agentNext invest a.capacity ((shares a.uuid).getD []) := rfl
      rw [hcap, hsh, Option.getD_some]
      unfold agentNext
      rw [if_pos hdeg]
    · unfold shareLogsFor
      rw [hsh]
      rcases hdeg with h0 | hsum
      · simp [h0]
      · by_cases h0 : sh.length = 0
        · simp [h0]
        · simp [h0, hsum]

/-- C7, witness: two agents, the first with an empty share, the second with a
healthy one; the loop returns normally with the empty-share log and leaves the
first agent's capacity at `10`. -/
theorem C7_degenerate_share_nonfatal_witness :
    sector_investment (fun _ => 1) 2020
        (fun n => if n = 1 then some ([] : List ℚ) else some [1])
        [⟨1, none, 10⟩, ⟨2, some 2020, 7⟩] =
      Except.ok
        (([⟨1, none, 10⟩, ⟨2, some 2020, 7⟩] : List SAgent).flatMap
          (shareLogsFor fun n => if n = 1 then some ([] : List ℚ) else some [1]),
        ([⟨1, none, 10⟩, ⟨2, some 2020, 7⟩] : List SAgent).map
          (investStep (fun _ => 1)
            (fun n => if n = 1 then some ([] : List ℚ) else some [1]))) := by
  have h := C7_degenerate_share_nonfatal (fun _ => 1) 2020
    (fun n => if n = 1 then some ([] : List ℚ) else some [1])
    [⟨1, none, 10⟩, ⟨2, some 2020, 7⟩]
    (by intro a ha; fin_cases ha <;> simp)
    (by intro a ha; fin_cases ha <;> simp)
  exact h.1

/-- C10: the sector forecast is `5` when no agent carries a `forecast`
attribute, equals `max 1 m` when `m` is the maximum of the attributes present,
and is always at least `1`. -/
theorem C10_sector_forecast (agentForecasts : List (Option ℤ)) :
    (agentForecasts.filterMap id = [] → Sector_forecast agentForecasts = 5) ∧
    (∀ m, (agentForecasts.filterMap id).max? = some m →
      Sector_forecast agentForecasts = max 1 m) ∧
    1 ≤ Sector_forecast agentForecasts := by
  refine ⟨?_, ?_, ?_⟩
  · intro h
    simp [Sector_forecast, h]
  · intro m hm
    simp [Sector_forecast, hm]
  · cases hm : (agentForecasts.filterMap id).max? with
    | none => simp [Sector_forecast, hm]
    | some m =>
        rw [show Sector_forecast agentForecasts = max 1 m from by
          simp [Sector_forecast, hm]]
        exact le_max_left 1 m

/-- C10, witness: agents with forecasts 3 and 7 (and one agent without the
attribute) give a sector forecast of `max 1 7 = 7`. -/
theorem C10_sector_forecast_witness :
    Sector_forecast [some 3, none, some 7] = max 1 7 :=
  (C10_sector_forecast [some 3, none, some 7]).2.1 7 (by decide)

theorem pyLookup_eq_none {κ ω : Type} [DecidableEq κ] (l : List (κ × ω)) (k : κ)
    (h : k ∉ l.map Prod.fst) : pyLookup l k = none := by
  induction l with
  | nil => rfl
  | cons p rest ih =>
      obtain ⟨k1, w⟩ := p
      have hk : ¬ (k = k1 ∨ k ∈ rest.map Prod.fst) := by simpa using h
      rw [not_or] at hk
      unfold pyLookup
      rw [ih hk.2]
      simp [hk.1]

theorem pyLookup_of_mem {κ ω : Type} [DecidableEq κ] (l : List (κ × ω))
    (hnd : (l.map Prod.fst).Nodup) (k : κ) (w : ω) (hm : (k, w) ∈ l) :
    pyLookup l k = some w := by
  induction l with
  | nil => cases hm
  | cons p rest ih =>
      obtain ⟨k1, w1⟩ := p
      have hk1 : k1 ∉ rest.map Prod.fst := (List.nodup_cons.mp hnd).1
      have hnd2 : (rest.map Prod.fst).Nodup := (List.nodup_cons.mp hnd).2
      rcases List.mem_cons.mp hm with heq | hmem
      · cases heq
        unfold pyLookup
        rw [pyLookup_eq_none rest k hk1]
        simp
      · unfold pyLookup
        rw [ih hnd2 hmem]

theorem pyLookup_mem {κ ω : Type} [DecidableEq κ] (l : List (κ × ω)) (k : κ)
    (w : ω) (h : pyLookup l k = some w) : (k, w) ∈ l := by
  induction l with
  | nil => exact absurd h (by simp [pyLookup])
  | cons p rest ih =>
      obtain ⟨k1, w1⟩ := p
      unfold pyLookup at h
      cases hrec : pyLookup rest k with
      | some w2 =>
          rw [hrec] at h
          have hw : w2 = w := by injection h
          rw [hw] at hrec
          exact List.mem_cons_of_mem _ (ih hrec)
      | none =>
          rw [hrec] at h
          by_cases hk : k = k1
          · rw [if_pos hk] at h
            have hw : w1 = w := by injection h
            rw [← hk, ← hw] at *
            exact List.mem_cons_self _ _
          · rw [if_neg hk] at h
            cases h

theorem dedup_length_eq_iff {α : Type} [DecidableEq α] (l : List α) :
    l.dedup.length = l.length ↔ l.Nodup := by
  constructor
  · intro h
    have heq := l.dedup_sublist.eq_of_length h
    rw [← heq]
    exact l.nodup_dedup
  · intro h
    rw [List.dedup_eq_self.mpr h]

theorem pairNew_ok_or_keyerror (retro : List DAgent) :
    ∀ news : List DAgent, (∃ l, pairNew retro news = Except.ok l) ∨
      pairNew retro news = Except.error "KeyError" := by
  intro news
  induction news with
  | nil => exact Or.inl ⟨[], rfl⟩
  | cons a rest ih =>
      cases h1 : pyLookup (retro.map fun b => ((b.name, b.region), b.uuid))
          (a.name, a.region) with
      | none =>
          refine Or.inr ?_
          simp [pairNew, h1]
      | some u =>
          cases h2 : pyLookup (retro.map fun b => (b.uuid, b.capacity)) u with
          | none =>
              refine Or.inr ?_
              simp [pairNew, h1, h2]
          | some cap =>
              rcases ih with ⟨l, hl⟩ | herr
              · refine Or.inl
                  ⟨(a.uuid, cap * (a.quantity.getD (3 / 10))) :: l, ?_⟩
                simp [pairNew, h1, h2, hl]
              · refine Or.inr ?_
                simp [pairNew, h1, h2, herr]

theorem pairNew_ok_matched (retro : List DAgent) :
    ∀ (news : List DAgent) (l : List (ℕ × ℚ)),
      pairNew retro news = Except.ok l →
      ∀ a ∈ news, ∃ b ∈ retro, b.name = a.name ∧ b.region = a.region := by
  intro news
  induction news with
  | nil =>
      intro l _ a ha
      exact absurd ha (List.not_mem_nil a)
  | cons a0 rest ih =>
      intro l hok a ha
      cases h1 : pyLookup (retro.map fun b => ((b.name, b.region), b.uuid))
          (a0.name, a0.region) with
      | none => simp [pairNew, h1] at hok
      | some u =>
          cases h2 : pyLookup (retro.map fun b => (b.uuid, b.capacity)) u with
          | none => simp [pairNew, h1, h2] at hok
          | some cap =>
              cases h3 : pairNew retro rest with
              | error e => simp [pairNew, h1, h2, h3] at hok
              | ok l2 =>
                  rcases List.mem_cons.mp ha with rfl | harest
                  · have hm := pyLookup_mem _ _ _ h1
                    rcases List.mem_map.mp hm with ⟨b, hb, hbe⟩
                    refine ⟨b, hb, ?_, ?_⟩
                    · have := congrArg (fun p => p.1.1) hbe
                      simpa using this
                    · have := congrArg (fun p => p.1.2) hbe
                      simpa using this
                  · exact ih l2 h3 a harest

theorem pairNew_ok_entry (retro : List DAgent)
    (hn : (retro.map fun b => (b.name, b.region)).Nodup)
    (hu : (retro.map fun b => b.uuid).Nodup) :
    ∀ (news : List DAgent) (l : List (ℕ × ℚ)),
      pairNew retro news = Except.ok l →
      ∀ a ∈ news, ∀ b ∈ retro, b.name = a.name → b.region = a.region →
        (a.uuid, b.capacity * (a.quantity.getD (3 / 10))) ∈ l := by
  intro news
  induction news with
  | nil =>
      intro l _ a ha b _ _ _
      exact absurd ha (List.not_mem_nil a)
  | cons a0 rest ih =>
      intro l hok a ha b hb hbn hbr
      cases h1 : pyLookup (retro.map fun x => ((x.name, x.region), x.uuid))
          (a0.name, a0.region) with
      | none => simp [pairNew, h1] at hok
      | some u =>
          cases h2 : pyLookup (retro.map fun x => (x.uuid, x.capacity)) u with
          | none => simp [pairNew, h1, h2] at hok
          | some cap =>
              cases h3 : pairNew retro rest with
              | error e => simp [pairNew, h1, h2, h3] at hok
              | ok l2 =>
                  simp only [pairNew, h1, h2, h3, Except.ok.injEq] at hok
                  rw [← hok]
                  rcases List.mem_cons.mp ha with rfl | harest
                  · have hkeys : ((retro.map fun x =>
                        ((x.name, x.region), x.uuid)).map Prod.fst).Nodup := by
                      simpa [List.map_map, Function.comp_def] using hn
                    have hbkey := pyLookup_of_mem _ hkeys (b.name, b.region) b.uuid
                      (List.mem_map_of_mem _ hb)
                    have hkey2 : ((b.name, b.region) : String × String) =
                        (a.name, a.region) := by rw [hbn, hbr]
                    rw [hkey2, h1] at hbkey
                    have huu : u = b.uuid := by injection hbkey
                    have hcaps : ((retro.map fun x =>
                        (x.uuid, x.capacity)).map Prod.fst).Nodup := by
                      simpa [List.map_map, Function.comp_def] using hu
                    have hbcap := pyLookup_of_mem _ hcaps b.uuid b.capacity
                      (List.mem_map_of_mem _ hb)
                    rw [← huu, h2] at hbcap
                    have hcap2 : cap = b.capacity := by injection hbcap
                    rw [← hcap2]
                    exact List.mem_cons_self _ _
                  · exact List.mem_cons_of_mem _ (ih l2 h3 a harest b hb hbn hbr)

/-- C8: in the per-region pairing of `new_and_retro`, assuming the region's
retrofit agents have pairwise distinct uuids: if their (name, region) pairs
are not pairwise distinct the assert fires and the call aborts; otherwise,
a non-retrofit agent of the region with no retrofit agent of the same name
and region makes the call fail with a lookup error, and on success every
non-retrofit agent is assigned the matching retrofit agent's capacity scaled
by its `quantity` attribute, defaulting to `0.3` when absent. -/
theorem C8_new_retro_pairing (agents : List DAgent) (region : String)
    (hu : ((retroOf agents region).map fun a => a.uuid).Nodup) :
    (¬ ((retroOf agents region).map fun a => (a.name, a.region)).Nodup →
      new_and_retro_pairing agents region = Except.error "AssertionError") ∧
    (((retroOf agents region).map fun a => (a.name, a.region)).Nodup →
      (∀ a ∈ newsOf agents region,
        (∀ b ∈ retroOf agents region,
          ¬ (b.name = a.name ∧ b.region = a.region)) →
        new_and_retro_pairing agents region = Except.error "KeyError") ∧
      (∀ l, new_and_retro_pairing agents region = Except.ok l →
        ∀ a ∈ newsOf agents region, ∀ b ∈ retroOf agents region,
          b.name = a.name → b.region = a.region →
          (a.uuid, b.capacity * (a.quantity.getD (3 / 10))) ∈ l)) := by
  have hlen : ((retroOf agents region).map fun a => (a.name, a.region)).length =
      ((retroOf agents region).map fun a => a.uuid).length := by simp
  have hud : ((retroOf agents region).map fun a => a.uuid).dedup.length =
      ((retroOf agents region).map fun a => a.uuid).length :=
    (dedup_length_eq_iff _).mpr hu
  constructor
  · intro hnames
    have hcond : ¬ (((retroOf agents region).map fun a =>
        (a.name, a.region)).dedup.length =
          ((retroOf agents region).map fun a => a.uuid).dedup.length) := by
      intro he
      apply hnames
      apply (dedup_length_eq_iff _).mp
      rw [he, hud, ← hlen]
    unfold new_and_retro_pairing
    rw [if_neg hcond]
  · intro hnames
    have hcond : (((retroOf agents region).map fun a =>
        (a.name, a.region)).dedup.length =
          ((retroOf agents region).map fun a => a.uuid).dedup.length) := by
      rw [(dedup_length_eq_iff _).mpr hnames, hud, hlen]
    have hpair : new_and_retro_pairing agents region =
        pairNew (retroOf agents region) (newsOf agents region) := by
      unfold new_and_retro_pairing
      rw [if_pos hcond]
    constructor
    · intro a ha hnomatch
      rcases pairNew_ok_or_keyerror (retroOf agents region)
          (newsOf agents region) with ⟨l, hl⟩ | herr
      · rcases pairNew_ok_matched _ _ l hl a ha with ⟨b, hb, hbn, hbr⟩
        exact absurd ⟨hbn, hbr⟩ (hnomatch b hb)
      · rw [hpair, herr]
    · intro l hok a ha b hb hbn hbr
      rw [hpair] at hok
      exact pairNew_ok_entry _ hnames hu _ l hok a ha b hb hbn hbr

/-- C8, witness: two retrofit agents of the same region sharing the name "A"
(with distinct uuids) make the pairing abort on the assert. -/
theorem C8_new_retro_pairing_witness :
    new_and_retro_pairing
        [⟨1, "A", "R", "retrofit", 0, none⟩, ⟨2, "A", "R", "retrofit", 0, none⟩]
        "R" = Except.error "AssertionError" := by
  have h := C8_new_retro_pairing
    [⟨1, "A", "R", "retrofit", 0, none⟩, ⟨2, "A", "R", "retrofit", 0, none⟩]
    "R" (by decide)
  exact h.1 (by decide)
